import Mathlib

set_option autoImplicit false

/-!
# Verification of the rkyv archiving impls

This file embeds, shallowly, the data model and operations of the rkyv
impl layer (`src/impls/...`, `src/option.rs`, `src/with/impls/core.rs`)
and proves the spec's testable properties about them.  Pure functions of
the Rust source become Lean functions; the fallible deserializer is
embedded as explicit state passing returning `Except`.  Components of
the repository whose code is not part of the examined sources (the
archived collection internals, the writer, the pooling deserializer)
are modelled from the spec, as marked in their doc comments.
-/

/-- Rust's `core::ops::ControlFlow`, as used by the `visit` closures of
`ArchivedBTreeMap::deserialize` and `ArchivedBTreeSet::deserialize`. -/
inductive CFlow (B : Type) (C : Type) where
  | Break : B → CFlow B C
  | Continue : C → CFlow B C

/-- Modelled from the spec: §4.6 checked access validates a buffer and
then yields the archived root.  A buffer that was just produced by
`serialize` is well-formed, so in this embedding — where serialization
produces the archived root value directly — checked access succeeds and
returns the root unchanged. -/
def checkedAccess {E A : Type} (root : A) : Except E A :=
  Except.ok root

/-! ## BTreeMap / BTreeSet

The live `BTreeMap K V` is modelled as its in-order entry list, which is
strictly increasing in the key (the invariant of the Rust std type); the
live `BTreeSet K` as its strictly increasing key list.  The archived
forms (`collections::btree_map::ArchivedBTreeMap`, whose internals are
outside the examined sources) are modelled from the spec, §4.4: the
encoder consumes the length and the strictly increasing iterator, and
`visit` is an in-order traversal yielding the entries in exactly that
order. -/

/-- `BTreeMap::insert` on the in-order entry-list model: place the new
entry at its ordered position, replacing an equal key. -/
def btreeMapInsert {K V : Type} [LinearOrder K] (k : K) (v : V) :
    List (K × V) → List (K × V)
  | [] => [(k, v)]
  | (k2, v2) :: rest =>
    if k < k2 then (k, v) :: (k2, v2) :: rest
    else if k = k2 then (k, v) :: rest
    else (k2, v2) :: btreeMapInsert k v rest

/-- `BTreeSet::insert` on the sorted key-list model. -/
def btreeSetInsert {K : Type} [LinearOrder K] (k : K) :
    List K → List K
  | [] => [k]
  | k2 :: rest =>
    if k < k2 then k :: k2 :: rest
    else if k = k2 then k :: rest
    else k2 :: btreeSetInsert k rest

/-- Modelled from the spec: §4.4 — `ArchivedBTreeMap::serialize_from_ordered_iter`
consumes the map's in-order iterator and encodes exactly those entries;
reading the archive back (`visit`) yields them in the same strictly
increasing key order.  So the archived map is modelled as the entry list
with each key and value replaced by its archived form. -/
def btreeMapArchive {K V AK AV : Type} (fK : K → AK) (fV : V → AV)
    (m : List (K × V)) : List (AK × AV) :=
  m.map (fun e => (fK e.1, fV e.2))

/-- Modelled from the spec: §4.4 — the archived set is the strictly
increasing archived-key sequence produced from the set's iterator. -/
def btreeSetArchive {K AK : Type} (fK : K → AK) (s : List K) : List AK :=
  s.map fK

/-- Modelled from the spec: §4.4 — `ArchivedBTreeMap::visit` is the
in-order traversal: it applies the closure to each entry in key order
and stops early with `some e` when the closure breaks with `e`;
it returns `none` when every entry was visited. -/
def btreeMapVisit {AK AV E : Type} (f : AK → AV → CFlow E Unit) :
    List (AK × AV) → Option E
  | [] => none
  | (ak, av) :: rest =>
    match f ak av with
    | CFlow.Break e => some e
    | CFlow.Continue _ => btreeMapVisit f rest

/-- Modelled from the spec: §4.4 — `ArchivedBTreeSet::visit`, the
in-order traversal over the archived keys. -/
def btreeSetVisit {AK E : Type} (f : AK → CFlow E Unit) :
    List AK → Option E
  | [] => none
  | ak :: rest =>
    match f ak with
    | CFlow.Break e => some e
    | CFlow.Continue _ => btreeSetVisit f rest

/-- The loop of `Deserialize for ArchivedBTreeMap` (btree_map.rs lines
52–73): visit every entry in order; deserialize the key, breaking with
the error on failure, then the value likewise, then insert into the
result map.  The fallible deserializer is embedded as a state `S`
threaded through the element deserializers. -/
def btreeMapDeserializeGo {K V AK AV S E : Type} [LinearOrder K]
    (dK : AK → S → S × Except E K) (dV : AV → S → S × Except E V) :
    List (AK × AV) → S → List (K × V) → S × Except E (List (K × V))
  | [], s, result => (s, Except.ok result)
  | (ak, av) :: rest, s, result =>
    match dK ak s with
    | (s1, Except.error e) => (s1, Except.error e)
    | (s1, Except.ok k) =>
      match dV av s1 with
      | (s2, Except.error e) => (s2, Except.error e)
      | (s2, Except.ok v) =>
        btreeMapDeserializeGo dK dV rest s2 (btreeMapInsert k v result)

/-- `Deserialize for ArchivedBTreeMap::deserialize`: start from the
empty map and run the visit loop. -/
def btreeMapDeserialize {K V AK AV S E : Type} [LinearOrder K]
    (dK : AK → S → S × Except E K) (dV : AV → S → S × Except E V)
    (archived : List (AK × AV)) (s : S) : S × Except E (List (K × V)) :=
  btreeMapDeserializeGo dK dV archived s []

/-- The loop of `Deserialize for ArchivedBTreeSet` (btree_set.rs lines
52–69). -/
def btreeSetDeserializeGo {K AK S E : Type} [LinearOrder K]
    (dK : AK → S → S × Except E K) :
    List AK → S → List K → S × Except E (List K)
  | [], s, result => (s, Except.ok result)
  | ak :: rest, s, result =>
    match dK ak s with
    | (s1, Except.error e) => (s1, Except.error e)
    | (s1, Except.ok k) =>
      btreeSetDeserializeGo dK rest s1 (btreeSetInsert k result)

/-- `Deserialize for ArchivedBTreeSet::deserialize`. -/
def btreeSetDeserialize {K AK S E : Type} [LinearOrder K]
    (dK : AK → S → S × Except E K)
    (archived : List AK) (s : S) : S × Except E (List K) :=
  btreeSetDeserializeGo dK archived s []

/-- Keys of an entry list. -/
def entryKeys {K V : Type} (m : List (K × V)) : List K :=
  m.map Prod.fst

/-! ## HashMap / HashSet

The live `HashMap K V` is modelled as its entry list in iteration
order, with pairwise distinct keys (the invariant of the Rust type);
`HashSet K` as its key list.  The archived swiss-table internals are
outside the examined sources; per the spec, §4.5, the encoder consumes
the iterator in arbitrary order, and iterating the archive yields each
entry exactly once — modelled as preserving the iteration order. -/

/-- `HashMap::get` on the entry-list model: the value of the entry
whose key equals the query. -/
def hashMapGet {K V : Type} [DecidableEq K] (k : K) :
    List (K × V) → Option V
  | [] => none
  | (k2, v2) :: rest => if k2 = k then some v2 else hashMapGet k rest

/-- `HashMap::insert` on the entry-list model: replace the value of an
existing equal key, else add the new entry (at the end). -/
def hashMapInsert {K V : Type} [DecidableEq K] (k : K) (v : V) :
    List (K × V) → List (K × V)
  | [] => [(k, v)]
  | (k2, v2) :: rest =>
    if k2 = k then (k, v) :: rest else (k2, v2) :: hashMapInsert k v rest

/-- `HashSet::insert` on the key-list model. -/
def hashSetInsert {K : Type} [DecidableEq K] (k : K) :
    List K → List K
  | [] => [k]
  | k2 :: rest => if k2 = k then k :: rest else k2 :: hashSetInsert k rest

/-- Modelled from the spec: §4.5 — `ArchivedHashMap::serialize_from_iter`
consumes the iterator and stores every entry; iterating the archive
yields the archived entries (modelled in the same order). -/
def hashMapArchive {K V AK AV : Type} (fK : K → AK) (fV : V → AV)
    (m : List (K × V)) : List (AK × AV) :=
  m.map (fun e => (fK e.1, fV e.2))

/-- Modelled from the spec: §4.5 — the archived hash set's stored keys. -/
def hashSetArchive {K AK : Type} (fK : K → AK) (s : List K) : List AK :=
  s.map fK

/-- The loop of `Deserialize for ArchivedHashMap` (hash_map.rs lines
57–70): for each archived entry, deserialize the key, then the value,
and insert into the result map, propagating element errors with `?`. -/
def hashMapDeserialize {K V AK AV S E : Type} [DecidableEq K]
    (dK : AK → S → S × Except E K) (dV : AV → S → S × Except E V) :
    List (AK × AV) → S → List (K × V) → S × Except E (List (K × V))
  | [], s, result => (s, Except.ok result)
  | (ak, av) :: rest, s, result =>
    match dK ak s with
    | (s1, Except.error e) => (s1, Except.error e)
    | (s1, Except.ok k) =>
      match dV av s1 with
      | (s2, Except.error e) => (s2, Except.error e)
      | (s2, Except.ok v) =>
        hashMapDeserialize dK dV rest s2 (hashMapInsert k v result)

/-- The loop of `Deserialize for ArchivedHashSet` (hash_set.rs lines
58–67). -/
def hashSetDeserialize {K AK S E : Type} [DecidableEq K]
    (dK : AK → S → S × Except E K) :
    List AK → S → List K → S × Except E (List K)
  | [], s, result => (s, Except.ok result)
  | ak :: rest, s, result =>
    match dK ak s with
    | (s1, Except.error e) => (s1, Except.error e)
    | (s1, Except.ok k) =>
      hashSetDeserialize dK rest s1 (hashSetInsert k result)

/-- `PartialEq<HashMap<K, V, S>> for ArchivedHashMap<AK, AV>`
(hash_map.rs lines 73–90): lengths must match, and every archived
entry's key must map, in the source map, to a value that the archived
value compares equal to.  `getQ` embeds `other.get(key)` (keyed through
`Borrow<AK>` in the source, so the query is the archived key). -/
def archivedHashMapEq {K V AK AV : Type}
    (getQ : AK → List (K × V) → Option V) (eqV : AV → V → Bool)
    (archived : List (AK × AV)) (other : List (K × V)) : Bool :=
  if archived.length ≠ other.length then false
  else archived.all (fun e =>
    match getQ e.1 other with
    | some v => eqV e.2 v
    | none => false)

/-! ## Option, tuples, arrays, Box, byte buffers -/

/-- `ArchivedOption` (option.rs lines 19–24). -/
inductive ArchivedOption (T : Type) where
  | None : ArchivedOption T
  | Some : T → ArchivedOption T
  deriving DecidableEq

/-- `ArchivedOption::is_none` (option.rs lines 59–64). -/
def ArchivedOption.is_none {T : Type} : ArchivedOption T → Bool
  | ArchivedOption.None => true
  | ArchivedOption.Some _ => false

/-- `Option`'s archived form: `None` maps to `ArchivedOption::None` and
`Some x` to `ArchivedOption::Some` of the archived inner value (the
resolve arm of the option impl writes the matching tag and, under a
`Some` tag, resolves the inner value into the value slot). -/
def optionArchive {T AT : Type} (f : T → AT) :
    Option T → ArchivedOption AT
  | none => ArchivedOption.None
  | some x => ArchivedOption.Some (f x)

/-- `Deserialize for ArchivedOption`: `Some` deserializes the inner
value (propagating its error), `None` maps to `None` (mirrors the
`deserialize_with` arm structure of the option impls). -/
def optionDeserialize {T AT S E : Type} (dT : AT → S → S × Except E T) :
    ArchivedOption AT → S → S × Except E (Option T)
  | ArchivedOption.None, s => (s, Except.ok none)
  | ArchivedOption.Some ax, s =>
    match dT ax s with
    | (s1, Except.error e) => (s1, Except.error e)
    | (s1, Except.ok x) => (s1, Except.ok (some x))

/-- `PartialEq<Option<T>> for ArchivedOption<U>` (option.rs lines
210–222): if the archived side is `Some`, equal exactly when the other
side is `Some` of an equal value; otherwise equal exactly when the
other side is `None`. -/
def archivedOptionEq {T U : Type} (eqTU : U → T → Bool) :
    ArchivedOption U → Option T → Bool
  | ArchivedOption.Some u, other =>
    match other with
    | some t => eqTU u t
    | none => false
  | ArchivedOption.None, other => other.isNone

/-- A two-tuple's archived form (`ArchivedTuple2`, from the
`impl_tuple!` expansion in impls/core/mod.rs): each component archived
in place. -/
def pairArchive {A B AA AB : Type} (fA : A → AA) (fB : B → AB)
    (p : A × B) : AA × AB :=
  (fA p.1, fB p.2)

/-- `Deserialize for ArchivedTuple2` (impls/core/mod.rs lines 158–165):
deserialize each component in order, propagating errors with `?`. -/
def pairDeserialize {A B AA AB S E : Type}
    (dA : AA → S → S × Except E A) (dB : AB → S → S × Except E B)
    (p : AA × AB) (s : S) : S × Except E (A × B) :=
  match dA p.1 s with
  | (s1, Except.error e) => (s1, Except.error e)
  | (s1, Except.ok a) =>
    match dB p.2 s1 with
    | (s2, Except.error e) => (s2, Except.error e)
    | (s2, Except.ok b) => (s2, Except.ok (a, b))

/-- An array `[T; N]`'s archived form: each element archived in place.
The length is a compile-time constant, so the model is the element
list. -/
def arrayArchive {T AT : Type} (f : T → AT) (a : List T) : List AT :=
  a.map f

/-- `Deserialize for [T::Archived; N]` (impls/core/mod.rs lines
233–249): deserialize each element in index order into the output
array, propagating element errors with `?`. -/
def arrayDeserialize {T AT S E : Type} (dT : AT → S → S × Except E T) :
    List AT → S → S × Except E (List T)
  | [], s => (s, Except.ok [])
  | at1 :: rest, s =>
    match dT at1 s with
    | (s1, Except.error e) => (s1, Except.error e)
    | (s1, Except.ok t) =>
      match arrayDeserialize dT rest s1 with
      | (s2, Except.error e) => (s2, Except.error e)
      | (s2, Except.ok ts) => (s2, Except.ok (t :: ts))

/-- `Box<T>`'s archived form: a relative pointer to the archived
pointee; observationally, the archived pointee (`ArchivedBox::get`). -/
def boxArchive {T AT : Type} (f : T → AT) (b : T) : AT :=
  f b

/-- `Deserialize for ArchivedBox` (boxed.rs lines 42–57): allocate and
deserialize the pointee, propagating its error. -/
def boxDeserialize {T AT S E : Type} (dT : AT → S → S × Except E T)
    (ab : AT) (s : S) : S × Except E T :=
  dT ab s

/-- `Bytes`'s archived form (bytes.rs): an `ArchivedVec<u8>` holding
the same byte values. -/
def bytesArchive (b : List Nat) : List Nat :=
  b

/-- `Deserialize for ArchivedVec<u8>` into `Bytes` (bytes.rs lines
29–35): extend a fresh buffer from the archived slice — the result is
the archived byte sequence, and the deserializer is not used. -/
def bytesDeserialize {S E : Type} (ab : List Nat) (s : S) :
    S × Except E (List Nat) :=
  (s, Except.ok ab)

/-! ## Swiss-table layout (hashed-container encoder)

The swiss-table internals (`collections::swiss_table`) are outside the
examined sources; the table is modelled from the spec, §4.5 and §3: a
fixed bucket array of capacity `ceil(len / load_factor)` with the
load-factor fraction `(7, 8)` passed by the examined impls
(hash_map.rs line 23, hash_set.rs lines 25–27), each bucket either
empty or holding one entry, addressed by `hash(key) mod capacity` with
linear probing, both at construction and at lookup. -/

/-- Modelled from the spec: §4.5 — bucket capacity for `n` entries at
load factor `num/den`, i.e. `ceil(n * den / num)`; the examined impls
fix the fraction at `(7, 8)`. -/
def bucketCapacity (num den n : Nat) : Nat :=
  (n * den + (num - 1)) / num

/-- Find the probe offset (< `fuel`) of the first empty bucket in the
linear probe sequence starting at `h + i`, if any. -/
def probeFindEmpty {A : Type} (tbl : List (Option A)) (h : Nat) :
    Nat → Nat → Option Nat
  | 0, _ => none
  | fuel + 1, i =>
    match tbl.getD ((h + i) % tbl.length) none with
    | none => some i
    | some _ => probeFindEmpty tbl h fuel (i + 1)

/-- Modelled from the spec: §4.5 — place one entry at archive time:
probe from `hash(key) mod capacity` and fill the first empty bucket
found within `capacity` probes. -/
def tableInsert {A : Type} (hash : A → Nat) (tbl : List (Option A))
    (a : A) : List (Option A) :=
  match probeFindEmpty tbl (hash a) tbl.length 0 with
  | none => tbl
  | some i => tbl.set ((hash a + i) % tbl.length) (some a)

/-- Modelled from the spec: §4.5 — build the archived table for the
given entries: allocate `ceil(len / (7/8))` empty buckets and place
each entry by open addressing. -/
def buildTable {A : Type} (hash : A → Nat) (entries : List A) :
    List (Option A) :=
  entries.foldl (tableInsert hash)
    (List.replicate (bucketCapacity 7 8 entries.length) none)

/-- Modelled from the spec: §4.5 — raw-byte lookup probe loop: probe
buckets from `hash(query) mod capacity` in the construction order until
an empty bucket (absent, `some none`) or a matching key (found,
`some (some a)`); `none` means the probe budget `fuel` was exhausted
without reaching a verdict. -/
def probeLookup {A : Type} (tbl : List (Option A)) (isMatch : A → Bool)
    (h : Nat) : Nat → Nat → Option (Option A)
  | 0, _ => none
  | fuel + 1, i =>
    match tbl.getD ((h + i) % tbl.length) none with
    | none => some none
    | some a =>
      if isMatch a then some (some a)
      else probeLookup tbl isMatch h fuel (i + 1)

/-- Modelled from the spec: §4.5 — raw-byte lookup: an empty table
holds nothing; otherwise probe with a budget of `capacity` probes. -/
def tableLookup {A : Type} (tbl : List (Option A)) (isMatch : A → Bool)
    (h : Nat) : Option (Option A) :=
  if tbl.length = 0 then some none
  else probeLookup tbl isMatch h tbl.length 0

/-! ## The writer and the slice serialization fast path

The writer (`ser::Writer`) is outside the examined sources; it is
modelled from the spec, §6: an append-only byte sink whose position is
the number of bytes written, `write` appends, and `align_for` pads to
the next multiple of the archived alignment and returns the aligned
position. -/

/-- Modelled from the spec: §6 — the writer: the bytes appended so
far; `pos()` is their count. -/
structure SerState where
  bytes : List Nat

/-- Modelled from the spec: §6 — `Writer::write` appends the given
bytes. -/
def serWrite (bs : List Nat) (s : SerState) : SerState :=
  ⟨s.bytes ++ bs⟩

/-- Padding needed to advance `pos` to the next multiple of `al`. -/
def padTo (al pos : Nat) : Nat :=
  if al = 0 then 0 else (al - pos % al) % al

/-- Modelled from the spec: §6 — `WriterExt::align_for` pads the sink
so the position is a multiple of the archived type's alignment and
returns that aligned position. -/
def alignFor (al : Nat) (s : SerState) : SerState × Nat :=
  let s2 := serWrite (List.replicate (padTo al s.bytes.length) 0) s
  (s2, s2.bytes.length)

/-- The copy-optimized fast path of `SerializeUnsized for [T]`
(impls/core/mod.rs lines 275–285): align for the archived element
type, then write the whole slice's bytes in one call, returning the
aligned position.  `bytesOf` gives one element's byte representation
(for a copy-optimized element type, identical between the live and the
archived form). -/
def sliceSerializeFast {T : Type} (al : Nat) (bytesOf : T → List Nat)
    (l : List T) (s : SerState) : SerState × Nat :=
  let (s1, result) := alignFor al s
  (serWrite (l.flatMap bytesOf) s1, result)

/-- The first loop of the generic path of `SerializeUnsized for [T]`
(impls/core/mod.rs lines 293–298): serialize every element in order,
pushing each resolver into scratch storage. -/
def collectResolvers {T R : Type} (serElem : T → SerState → SerState × R) :
    List T → SerState → SerState × List R
  | [], s => (s, [])
  | t :: rest, s =>
    match serElem t s with
    | (s2, r) =>
      match collectResolvers serElem rest s2 with
      | (s3, rs) => (s3, r :: rs)

/-- The second loop of the generic path (impls/core/mod.rs lines
302–307): resolve each element, paired with its resolver, into the
next sequential slot (`resolve_aligned` writes the element's archived
bytes at the current position). -/
def resolveLoop {T R : Type} (resolveElem : T → R → List Nat) :
    List (T × R) → SerState → SerState
  | [], s => s
  | tr :: rest, s =>
    resolveLoop resolveElem rest (serWrite (resolveElem tr.1 tr.2) s)

/-- The generic path of `SerializeUnsized for [T]` (impls/core/mod.rs
lines 286–312): serialize every element in order, collecting the
resolvers in scratch storage; then align for the archived element
type; then resolve every element in order into sequential slots.
Returns the aligned position. -/
def sliceSerializeGeneric {T R : Type} (al : Nat)
    (serElem : T → SerState → SerState × R)
    (resolveElem : T → R → List Nat)
    (l : List T) (s : SerState) : SerState × Nat :=
  let c := collectResolvers serElem l s
  let a := alignFor al c.1
  (resolveLoop resolveElem (l.zip c.2) a.1, a.2)

/-! ## Places and the resolve step

`Place` itself (`place.rs`) is outside the examined sources; it is
modelled from the spec, §3: an (address, size) byte range inside the
output buffer that one archived value will occupy.  The buffer is
modelled as a per-byte write counter, so that "initialized" and
"written exactly once" are the count's value. -/

/-- Modelled from the spec: §3 — a `Place`: the start address and the
byte size of one archived value's slot. -/
structure PlaceRange where
  start : Nat
  size : Nat

/-- The combined resolve-time state: the output buffer as a per-byte
write count, and the writer position.  `resolve` takes no serializer
(its Rust signature has no writer argument), so the writer position is
carried only to state that resolving leaves it untouched. -/
structure ResolveState where
  writeCount : Nat → Nat
  writerPos : Nat

/-- A leaf resolve: write every byte of the place once (a leaf archived
value's `resolve` fills its whole fixed-size slot). -/
def placeWrite (p : PlaceRange) (st : ResolveState) : ResolveState :=
  { st with writeCount := fun b =>
      if p.start ≤ b ∧ b < p.start + p.size then st.writeCount b + 1
      else st.writeCount b }

/-- The field places a composite resolve subdivides its own place into
(tuple resolve, impls/core/mod.rs lines 112–133, one projected place
per field via `addr_of_mut!`; array resolve, lines 205–210, one place
per element via `out.index(i)`): field `i` starts at the parent's start
plus the sizes of the fields before it. -/
def fieldPlaces (start : Nat) : List Nat → List PlaceRange
  | [] => []
  | sz :: rest => ⟨start, sz⟩ :: fieldPlaces (start + sz) rest

/-- A composite (tuple or array) resolve: delegate to each field's
resolve at that field's own place, in field order. -/
def compositeResolve (start : Nat) (sizes : List Nat)
    (st : ResolveState) : ResolveState :=
  (fieldPlaces start sizes).foldl (fun acc p => placeWrite p acc) st

/-- Two places are disjoint byte ranges. -/
def placesDisjoint (p q : PlaceRange) : Prop :=
  p.start + p.size ≤ q.start ∨ q.start + q.size ≤ p.start

/-! ## The shared-pointer pool (deserialize side)

The pooling deserializer (`de::Pooling`) is outside the examined
sources; it is modelled from the spec, §4.3 and §3: a registry keyed by
the archived value's offset, holding the already-materialized shared
allocation; on first sight it allocates (`SharedPointer::alloc`
produces the allocation with one owner, the pool's), deserializes into
it, registers it, and returns it; on later sightings it returns the
existing allocation. -/

/-- The deserialize-side pool state: `pool` maps an archived offset to
an allocation index into `heap`; `heap` holds each allocation's value
and its current ownership (reference) count. -/
structure PoolState (V : Type) where
  pool : List (Nat × Nat)
  heap : List (V × Nat)

/-- Offset lookup in the pool registry. -/
def poolFind (off : Nat) : List (Nat × Nat) → Option Nat
  | [] => none
  | (o, id) :: rest => if o = off then some id else poolFind off rest

/-- Modelled from the spec: §4.3 — `Pooling::deserialize_shared`: if
the offset is registered, return the existing allocation; otherwise
allocate (ownership count 1, held by the pool), deserialize the pointee
value into it, register it, and return it. -/
def deserializeShared {V : Type} (off : Nat) (produce : V)
    (st : PoolState V) : PoolState V × Nat :=
  match poolFind off st.pool with
  | some id => (st, id)
  | none =>
    let id := st.heap.length
    (⟨(off, id) :: st.pool, st.heap ++ [(produce, 1)]⟩, id)

/-- Increment the ownership count stored at heap index `id`. -/
def bumpAt {V : Type} : Nat → List (V × Nat) → List (V × Nat)
  | _, [] => []
  | 0, (v, c) :: rest => (v, c + 1) :: rest
  | n + 1, p :: rest => p :: bumpAt n rest

/-- Increment an allocation's ownership count (the effect of
`forget(shared_ptr.clone())` on the allocation). -/
def bumpRef {V : Type} (id : Nat) (st : PoolState V) : PoolState V :=
  ⟨st.pool, bumpAt id st.heap⟩

/-- `Deserialize for ArchivedRc<_, TriompheArcFlavor>` (triomphe.rs
lines 70–76): obtain the shared allocation from the pool
(`deserialize_shared`), reconstruct the `Arc` handle from it, and
`forget` a clone of it — leaving the pool's own reference in place and
adding one reference owned by the returned handle. -/
def arcDeserialize {V : Type} (off : Nat) (produce : V)
    (st : PoolState V) : PoolState V × Nat :=
  let r := deserializeShared off produce st
  (bumpRef r.2 r.1, r.2)

/-- An allocation's ownership count. -/
def refCount {V : Type} (id : Nat) (st : PoolState V) : Nat :=
  match st.heap[id]? with
  | some p => p.2
  | none => 0

/-! ## Ordered raw-byte lookup (for the archived B-tree) -/

/-- Modelled from the spec: §4.4 — raw-byte lookup walks the archived
search structure using the archived key type's own ordering; on the
in-order model this is the ordered scan that stops as soon as the keys
exceed the query. -/
def btreeLookup {AK : Type} [LinearOrder AK] (q : AK) :
    List AK → Bool
  | [] => false
  | k :: rest =>
    if q < k then false
    else if q = k then true
    else btreeLookup q rest

/-! ## The `Skip` wrapper (with/impls/core.rs lines 384–403) -/

/-- `ArchiveWith<F> for Skip` has `type Archived = ()` and
`type Resolver = ()`, and `resolve_with` writes nothing. -/
def skipResolveWith {F : Type} (_ : F) (_ : Unit) : Unit :=
  ()

/-- `SerializeWith<F, S> for Skip::serialize_with` returns `Ok(())`
without touching the serializer. -/
def skipSerializeWith {F S E : Type} (_ : F) (s : S) :
    S × Except E Unit :=
  (s, Except.ok ())

/-- `DeserializeWith<(), F, D> for Skip::deserialize_with` returns
`Ok(Default::default())` without touching the deserializer. -/
def skipDeserializeWith {F S E : Type} [Inhabited F] (_ : Unit)
    (s : S) : S × Except E F :=
  (s, Except.ok default)

/-- Checked access followed by a read of the accessed archive (the
composition `deserialize(checked_access(...))` of the round-trip law). -/
def accessThen {E A B : Type} (archived : A) (f : A → Except E B) :
    Except E B :=
  (checkedAccess archived).bind f

/-- Modelled from the spec: §4.4 — raw-byte lookup in the archived
B-tree map: the ordered search by the archived key ordering, stopping
as soon as the scanned keys exceed the query. -/
def btreeMapLookup {AK AV : Type} [LinearOrder AK] (q : AK) :
    List (AK × AV) → Option AV
  | [] => none
  | (k, v) :: rest =>
    if q < k then none
    else if q = k then some v
    else btreeMapLookup q rest

/-! ## Lemmas about composite resolve and field places -/

lemma placeWrite_writerPos (p : PlaceRange) (st : ResolveState) :
    (placeWrite p st).writerPos = st.writerPos := rfl

lemma compositeResolve_nil (start : Nat) (st : ResolveState) :
    compositeResolve start [] st = st := rfl

lemma compositeResolve_cons (start sz : Nat) (rest : List Nat)
    (st : ResolveState) :
    compositeResolve start (sz :: rest) st =
      compositeResolve (start + sz) rest (placeWrite ⟨start, sz⟩ st) := rfl

lemma compositeResolve_writerPos (sizes : List Nat) :
    ∀ (start : Nat) (st : ResolveState),
      (compositeResolve start sizes st).writerPos = st.writerPos := by
  induction sizes with
  | nil => intro start st; rfl
  | cons sz rest ih =>
    intro start st
    rw [compositeResolve_cons, ih]
    rfl

lemma compositeResolve_writeCount (sizes : List Nat) :
    ∀ (start : Nat) (st : ResolveState) (b : Nat),
      (compositeResolve start sizes st).writeCount b =
        if start ≤ b ∧ b < start + sizes.sum then st.writeCount b + 1
        else st.writeCount b := by
  induction sizes with
  | nil =>
    intro start st b
    rw [compositeResolve_nil, if_neg (by simp)]
  | cons sz rest ih =>
    intro start st b
    rw [compositeResolve_cons, ih]
    simp only [placeWrite, List.sum_cons]
    by_cases hin : start + sz ≤ b ∧ b < start + sz + rest.sum
    · rw [if_pos hin]
      have hout : ¬ (start ≤ b ∧ b < start + sz) := by omega
      rw [if_neg hout, if_pos (by omega)]
    · rw [if_neg hin]
      by_cases hhd : start ≤ b ∧ b < start + sz
      · rw [if_pos hhd, if_pos (by omega)]
      · rw [if_neg hhd, if_neg (by omega)]

lemma fieldPlaces_start_le (sizes : List Nat) :
    ∀ (start : Nat) (p : PlaceRange), p ∈ fieldPlaces start sizes →
      start ≤ p.start := by
  induction sizes with
  | nil => intro start p hp; simp [fieldPlaces] at hp
  | cons sz rest ih =>
    intro start p hp
    simp only [fieldPlaces, List.mem_cons] at hp
    rcases hp with h | h
    · subst h; exact Nat.le_refl _
    · exact Nat.le_trans (Nat.le_add_right _ _) (ih (start + sz) p h)

lemma fieldPlaces_within (sizes : List Nat) :
    ∀ (start : Nat) (p : PlaceRange), p ∈ fieldPlaces start sizes →
      start ≤ p.start ∧ p.start + p.size ≤ start + sizes.sum := by
  induction sizes with
  | nil => intro start p hp; simp [fieldPlaces] at hp
  | cons sz rest ih =>
    intro start p hp
    simp only [fieldPlaces, List.mem_cons] at hp
    rcases hp with h | h
    · subst h
      simp only [List.sum_cons]
      omega
    · have := ih (start + sz) p h
      simp only [List.sum_cons]
      omega

lemma fieldPlaces_pairwise_disjoint (sizes : List Nat) :
    ∀ (start : Nat), (fieldPlaces start sizes).Pairwise placesDisjoint := by
  induction sizes with
  | nil => intro start; exact List.Pairwise.nil
  | cons sz rest ih =>
    intro start
    refine List.Pairwise.cons ?_ (ih (start + sz))
    intro q hq
    left
    exact fieldPlaces_start_le rest (start + sz) q hq

/-- C7: Resolve is infallible and exact.  The embedded resolve steps
are total functions (no error branch exists in their types, mirroring
the `()`-returning Rust signatures, which take no writer either).  A
composite (tuple, impls/core/mod.rs lines 112–133) resolve and a leaf
resolve (e.g. `ArchivedBox`'s, boxed.rs lines 19–22) write each byte of
exactly their own place — `sizeof(Archived<T>)` bytes — leave every
byte outside the place untouched, and leave the writer position
unchanged (no writer I/O). -/
theorem resolve_infallible_exact (start : Nat) (sizes : List Nat)
    (p : PlaceRange) (st : ResolveState) :
    ((compositeResolve start sizes st).writerPos = st.writerPos
      ∧ (∀ b : Nat, start ≤ b ∧ b < start + sizes.sum →
          (compositeResolve start sizes st).writeCount b =
            st.writeCount b + 1)
      ∧ (∀ b : Nat, ¬ (start ≤ b ∧ b < start + sizes.sum) →
          (compositeResolve start sizes st).writeCount b =
            st.writeCount b))
    ∧ ((placeWrite p st).writerPos = st.writerPos
      ∧ (∀ b : Nat, p.start ≤ b ∧ b < p.start + p.size →
          (placeWrite p st).writeCount b = st.writeCount b + 1)
      ∧ (∀ b : Nat, ¬ (p.start ≤ b ∧ b < p.start + p.size) →
          (placeWrite p st).writeCount b = st.writeCount b)) := by
  refine ⟨⟨compositeResolve_writerPos sizes start st, ?_, ?_⟩,
    rfl, ?_, ?_⟩
  · intro b hb
    rw [compositeResolve_writeCount, if_pos hb]
  · intro b hb
    rw [compositeResolve_writeCount, if_neg hb]
  · intro b hb
    simp only [placeWrite, if_pos hb]
  · intro b hb
    simp only [placeWrite, if_neg hb]

/-- C7 witness: a three-field tuple resolve at a concrete place. -/
theorem resolve_infallible_exact_witness :
    (compositeResolve 4 [2, 3, 1] ⟨fun _ => 0, 9⟩).writerPos = 9
    ∧ (compositeResolve 4 [2, 3, 1] ⟨fun _ => 0, 9⟩).writeCount 7 = 1
    ∧ (compositeResolve 4 [2, 3, 1] ⟨fun _ => 0, 9⟩).writeCount 10 = 0 := by
  have h := resolve_infallible_exact 4 [2, 3, 1] ⟨0, 1⟩ ⟨fun _ => 0, 9⟩
  exact ⟨h.1.1, h.1.2.1 7 (by decide), h.1.2.2 10 (by decide)⟩

/-- C8: When a composite (tuple, impls/core/mod.rs lines 112–133;
array, lines 205–210) resolves, the field places it subdivides its own
place into are pairwise disjoint byte ranges lying within the parent
place, and each byte of the parent place is written exactly once — its
write count rises by exactly one over the whole composite resolve, so
no byte is written by two different field resolutions. -/
theorem sibling_places_nonoverlapping (start : Nat) (sizes : List Nat)
    (st : ResolveState) :
    (fieldPlaces start sizes).Pairwise placesDisjoint
    ∧ (∀ p ∈ fieldPlaces start sizes,
        start ≤ p.start ∧ p.start + p.size ≤ start + sizes.sum)
    ∧ (∀ b : Nat, start ≤ b ∧ b < start + sizes.sum →
        (compositeResolve start sizes st).writeCount b =
          st.writeCount b + 1) := by
  refine ⟨fieldPlaces_pairwise_disjoint sizes start,
    fun p hp => fieldPlaces_within sizes start p hp, ?_⟩
  intro b hb
  rw [compositeResolve_writeCount, if_pos hb]

/-- C8 witness: a concrete four-element array resolve. -/
theorem sibling_places_nonoverlapping_witness :
    (fieldPlaces 0 [4, 4, 4, 4]).Pairwise placesDisjoint
    ∧ (compositeResolve 0 [4, 4, 4, 4] ⟨fun _ => 0, 0⟩).writeCount 13
        = 1 := by
  have h := sibling_places_nonoverlapping 0 [4, 4, 4, 4] ⟨fun _ => 0, 0⟩
  exact ⟨h.1, h.2.2 13 (by decide)⟩

/-- C10: The `Skip` wrapper discards data: `Skip::serialize_with`
succeeds for every field value without touching the serializer, the
archived form is the unit type (its resolve writes the unit value), and
`Skip::deserialize_with` returns `Ok(Default::default())` for every
deserializer — so a `Skip`-wrapped field deserializes to the field
type's default value, which equals the original value only when the
original was itself the default. -/
theorem skip_discards_data {F S E : Type} [Inhabited F]
    (f : F) (s : S) (d : S) :
    skipSerializeWith f s = (s, (Except.ok () : Except E Unit))
    ∧ skipResolveWith f () = ()
    ∧ skipDeserializeWith () d = (d, (Except.ok (default : F) : Except E F))
    ∧ ((skipDeserializeWith (skipResolveWith f ()) d
          = (d, (Except.ok f : Except E F))) ↔ f = default) := by
  refine ⟨rfl, rfl, rfl, ?_⟩
  constructor
  · intro h
    have h2 := congrArg (fun q : S × Except E F => q.2) h
    simp only [skipDeserializeWith] at h2
    cases h2
    rfl
  · intro h
    subst h
    rfl

/-! ## Lemmas about the container deserialization loops -/

lemma btreeMapArchive_cons {K V AK AV : Type} (fK : K → AK) (fV : V → AV)
    (e : K × V) (rest : List (K × V)) :
    btreeMapArchive fK fV (e :: rest)
      = (fK e.1, fV e.2) :: btreeMapArchive fK fV rest := by
  simp [btreeMapArchive]

lemma btreeSetArchive_cons {K AK : Type} (fK : K → AK)
    (k : K) (rest : List K) :
    btreeSetArchive fK (k :: rest) = fK k :: btreeSetArchive fK rest := by
  simp [btreeSetArchive]

lemma hashMapArchive_cons {K V AK AV : Type} (fK : K → AK) (fV : V → AV)
    (e : K × V) (rest : List (K × V)) :
    hashMapArchive fK fV (e :: rest)
      = (fK e.1, fV e.2) :: hashMapArchive fK fV rest := by
  simp [hashMapArchive]

lemma hashSetArchive_cons {K AK : Type} (fK : K → AK)
    (k : K) (rest : List K) :
    hashSetArchive fK (k :: rest) = fK k :: hashSetArchive fK rest := by
  simp [hashSetArchive]

lemma btreeMapGo_archive_append {K V AK AV S E : Type} [LinearOrder K]
    {fK : K → AK} {fV : V → AV}
    {dK : AK → S → S × Except E K} {dV : AV → S → S × Except E V}
    (hK : ∀ (k : K) (t : S), dK (fK k) t = (t, Except.ok k))
    (hV : ∀ (v : V) (t : S), dV (fV v) t = (t, Except.ok v)) :
    ∀ (pre : List (K × V)) (tail : List (AK × AV)) (s : S)
      (acc : List (K × V)),
      btreeMapDeserializeGo dK dV (btreeMapArchive fK fV pre ++ tail) s acc
        = btreeMapDeserializeGo dK dV tail s
            (pre.foldl (fun a e => btreeMapInsert e.1 e.2 a) acc) := by
  intro pre
  induction pre with
  | nil => intro tail s acc; simp [btreeMapArchive]
  | cons e rest ih =>
    intro tail s acc
    rw [btreeMapArchive_cons, List.cons_append]
    simp only [btreeMapDeserializeGo, hK e.1 s, hV e.2 s]
    rw [ih tail s (btreeMapInsert e.1 e.2 acc)]
    simp [List.foldl_cons]

lemma btreeSetGo_archive_append {K AK S E : Type} [LinearOrder K]
    {fK : K → AK} {dK : AK → S → S × Except E K}
    (hK : ∀ (k : K) (t : S), dK (fK k) t = (t, Except.ok k)) :
    ∀ (pre : List K) (tail : List AK) (s : S) (acc : List K),
      btreeSetDeserializeGo dK (btreeSetArchive fK pre ++ tail) s acc
        = btreeSetDeserializeGo dK tail s
            (pre.foldl (fun a k => btreeSetInsert k a) acc) := by
  intro pre
  induction pre with
  | nil => intro tail s acc; simp [btreeSetArchive]
  | cons k rest ih =>
    intro tail s acc
    rw [btreeSetArchive_cons, List.cons_append]
    simp only [btreeSetDeserializeGo, hK k s]
    rw [ih tail s (btreeSetInsert k acc)]
    simp [List.foldl_cons]

lemma hashMapGo_archive_append {K V AK AV S E : Type} [DecidableEq K]
    {fK : K → AK} {fV : V → AV}
    {dK : AK → S → S × Except E K} {dV : AV → S → S × Except E V}
    (hK : ∀ (k : K) (t : S), dK (fK k) t = (t, Except.ok k))
    (hV : ∀ (v : V) (t : S), dV (fV v) t = (t, Except.ok v)) :
    ∀ (pre : List (K × V)) (tail : List (AK × AV)) (s : S)
      (acc : List (K × V)),
      hashMapDeserialize dK dV (hashMapArchive fK fV pre ++ tail) s acc
        = hashMapDeserialize dK dV tail s
            (pre.foldl (fun a e => hashMapInsert e.1 e.2 a) acc) := by
  intro pre
  induction pre with
  | nil => intro tail s acc; simp [hashMapArchive]
  | cons e rest ih =>
    intro tail s acc
    rw [hashMapArchive_cons, List.cons_append]
    simp only [hashMapDeserialize, hK e.1 s, hV e.2 s]
    rw [ih tail s (hashMapInsert e.1 e.2 acc)]
    simp [List.foldl_cons]

lemma hashSetGo_archive_append {K AK S E : Type} [DecidableEq K]
    {fK : K → AK} {dK : AK → S → S × Except E K}
    (hK : ∀ (k : K) (t : S), dK (fK k) t = (t, Except.ok k)) :
    ∀ (pre : List K) (tail : List AK) (s : S) (acc : List K),
      hashSetDeserialize dK (hashSetArchive fK pre ++ tail) s acc
        = hashSetDeserialize dK tail s
            (pre.foldl (fun a k => hashSetInsert k a) acc) := by
  intro pre
  induction pre with
  | nil => intro tail s acc; simp [hashSetArchive]
  | cons k rest ih =>
    intro tail s acc
    rw [hashSetArchive_cons, List.cons_append]
    simp only [hashSetDeserialize, hK k s]
    rw [ih tail s (hashSetInsert k acc)]
    simp [List.foldl_cons]

/-! ## Rebuilding a container by inserting its entries in order -/

lemma entryKeys_append {K V : Type} (a b : List (K × V)) :
    entryKeys (a ++ b) = entryKeys a ++ entryKeys b := by
  simp [entryKeys]

lemma btreeMapInsert_append {K V : Type} [LinearOrder K]
    (k : K) (v : V) :
    ∀ (acc : List (K × V)), (∀ k2 ∈ entryKeys acc, k2 < k) →
      btreeMapInsert k v acc = acc ++ [(k, v)] := by
  intro acc
  induction acc with
  | nil => intro _; rfl
  | cons e rest ih =>
    intro h
    have hlt : e.1 < k := h e.1 (by simp [entryKeys])
    show btreeMapInsert k v ((e.1, e.2) :: rest) = _
    rw [btreeMapInsert, if_neg (by exact not_lt_of_gt hlt),
      if_neg (by exact fun hc => absurd hc.symm (ne_of_lt hlt)),
      ih (fun k2 hk2 => h k2 (by simp [entryKeys] at hk2 ⊢; tauto))]
    rfl

lemma btreeSetInsert_append {K : Type} [LinearOrder K] (k : K) :
    ∀ (acc : List K), (∀ k2 ∈ acc, k2 < k) →
      btreeSetInsert k acc = acc ++ [k] := by
  intro acc
  induction acc with
  | nil => intro _; rfl
  | cons e rest ih =>
    intro h
    have hlt : e < k := h e (by simp)
    rw [btreeSetInsert, if_neg (by exact not_lt_of_gt hlt),
      if_neg (by exact fun hc => absurd hc.symm (ne_of_lt hlt)),
      ih (fun k2 hk2 => h k2 (by simp [hk2]))]
    rfl

lemma hashMapInsert_append {K V : Type} [DecidableEq K]
    (k : K) (v : V) :
    ∀ (acc : List (K × V)), (∀ k2 ∈ entryKeys acc, k2 ≠ k) →
      hashMapInsert k v acc = acc ++ [(k, v)] := by
  intro acc
  induction acc with
  | nil => intro _; rfl
  | cons e rest ih =>
    intro h
    have hne : e.1 ≠ k := h e.1 (by simp [entryKeys])
    show hashMapInsert k v ((e.1, e.2) :: rest) = _
    rw [hashMapInsert, if_neg hne,
      ih (fun k2 hk2 => h k2 (by simp [entryKeys] at hk2 ⊢; tauto))]
    rfl

lemma hashSetInsert_append {K : Type} [DecidableEq K] (k : K) :
    ∀ (acc : List K), (∀ k2 ∈ acc, k2 ≠ k) →
      hashSetInsert k acc = acc ++ [k] := by
  intro acc
  induction acc with
  | nil => intro _; rfl
  | cons e rest ih =>
    intro h
    have hne : e ≠ k := h e (by simp)
    rw [hashSetInsert, if_neg hne, ih (fun k2 hk2 => h k2 (by simp [hk2]))]
    rfl

lemma foldl_btreeMapInsert_sorted {K V : Type} [LinearOrder K] :
    ∀ (m acc : List (K × V)),
      (entryKeys (acc ++ m)).Pairwise (· < ·) →
      m.foldl (fun a e => btreeMapInsert e.1 e.2 a) acc = acc ++ m := by
  intro m
  induction m with
  | nil => intro acc _; simp
  | cons e rest ih =>
    intro acc h
    rw [entryKeys_append, List.pairwise_append] at h
    have hacc : ∀ k2 ∈ entryKeys acc, k2 < e.1 := by
      intro k2 hk2
      exact h.2.2 k2 hk2 e.1 (by simp [entryKeys])
    rw [List.foldl_cons, btreeMapInsert_append e.1 e.2 acc hacc]
    have h2 : (entryKeys ((acc ++ [e]) ++ rest)).Pairwise (· < ·) := by
      rw [List.append_assoc]
      rw [entryKeys_append, List.pairwise_append]
      refine ⟨h.1, ?_, ?_⟩
      · simpa [entryKeys] using h.2.1
      · intro a ha b hb
        exact h.2.2 a ha b (by simp [entryKeys] at hb ⊢; tauto)
    have := ih (acc ++ [e]) h2
    simpa using this

lemma foldl_btreeSetInsert_sorted {K : Type} [LinearOrder K] :
    ∀ (m acc : List K),
      (acc ++ m).Pairwise (· < ·) →
      m.foldl (fun a k => btreeSetInsert k a) acc = acc ++ m := by
  intro m
  induction m with
  | nil => intro acc _; simp
  | cons e rest ih =>
    intro acc h
    rw [List.pairwise_append] at h
    have hacc : ∀ k2 ∈ acc, k2 < e := by
      intro k2 hk2
      exact h.2.2 k2 hk2 e (by simp)
    rw [List.foldl_cons, btreeSetInsert_append e acc hacc]
    have h2 : ((acc ++ [e]) ++ rest).Pairwise (· < ·) := by
      rw [List.append_assoc]
      rw [List.pairwise_append]
      refine ⟨h.1, ?_, ?_⟩
      · simpa using h.2.1
      · intro a ha b hb
        exact h.2.2 a ha b (by simp at hb ⊢; tauto)
    have := ih (acc ++ [e]) h2
    simpa using this

lemma foldl_hashMapInsert_distinct {K V : Type} [DecidableEq K] :
    ∀ (m acc : List (K × V)),
      (entryKeys (acc ++ m)).Pairwise (· ≠ ·) →
      m.foldl (fun a e => hashMapInsert e.1 e.2 a) acc = acc ++ m := by
  intro m
  induction m with
  | nil => intro acc _; simp
  | cons e rest ih =>
    intro acc h
    rw [entryKeys_append, List.pairwise_append] at h
    have hacc : ∀ k2 ∈ entryKeys acc, k2 ≠ e.1 := by
      intro k2 hk2
      exact h.2.2 k2 hk2 e.1 (by simp [entryKeys])
    rw [List.foldl_cons, hashMapInsert_append e.1 e.2 acc hacc]
    have h2 : (entryKeys ((acc ++ [e]) ++ rest)).Pairwise (· ≠ ·) := by
      rw [List.append_assoc]
      rw [entryKeys_append, List.pairwise_append]
      refine ⟨h.1, ?_, ?_⟩
      · simpa [entryKeys] using h.2.1
      · intro a ha b hb
        exact h.2.2 a ha b (by simp [entryKeys] at hb ⊢; tauto)
    have := ih (acc ++ [e]) h2
    simpa using this

lemma foldl_hashSetInsert_distinct {K : Type} [DecidableEq K] :
    ∀ (m acc : List K),
      (acc ++ m).Pairwise (· ≠ ·) →
      m.foldl (fun a k => hashSetInsert k a) acc = acc ++ m := by
  intro m
  induction m with
  | nil => intro acc _; simp
  | cons e rest ih =>
    intro acc h
    rw [List.pairwise_append] at h
    have hacc : ∀ k2 ∈ acc, k2 ≠ e := by
      intro k2 hk2
      exact h.2.2 k2 hk2 e (by simp)
    rw [List.foldl_cons, hashSetInsert_append e acc hacc]
    have h2 : ((acc ++ [e]) ++ rest).Pairwise (· ≠ ·) := by
      rw [List.append_assoc]
      rw [List.pairwise_append]
      refine ⟨h.1, ?_, ?_⟩
      · simpa using h.2.1
      · intro a ha b hb
        exact h.2.2 a ha b (by simp at hb ⊢; tauto)
    have := ih (acc ++ [e]) h2
    simpa using this

lemma accessThen_eq {E A B : Type} (archived : A) (f : A → Except E B) :
    accessThen archived f = f archived := rfl

lemma arrayDeserialize_archive {T AT S E : Type} {fT : T → AT}
    {dT : AT → S → S × Except E T}
    (hT : ∀ (x : T) (t : S), dT (fT x) t = (t, Except.ok x)) :
    ∀ (l : List T) (s : S),
      arrayDeserialize dT (arrayArchive fT l) s = (s, Except.ok l) := by
  intro l
  induction l with
  | nil => intro s; rfl
  | cons x rest ih =>
    intro s
    show arrayDeserialize dT (fT x :: arrayArchive fT rest) s = _
    simp only [arrayDeserialize, hT x s, ih s]

/-- C1: The round-trip law.  Given archived element forms whose
deserialization recovers the original element exactly (leaving the
deserializer as found), deserializing the checked-accessed archive of a
supported value yields a value equal to the original: for B-tree maps
and sets (entries strictly increasing in the key, the `BTreeMap` /
`BTreeSet` invariant), hash maps and sets (pairwise distinct keys, the
`HashMap` / `HashSet` invariant), boxes, two-tuples, arrays, options,
and byte buffers. -/
theorem round_trip_law {K V AK AV S E : Type} [LinearOrder K]
    (fK : K → AK) (fV : V → AV)
    (dK : AK → S → S × Except E K) (dV : AV → S → S × Except E V)
    (hK : ∀ (k : K) (t : S), dK (fK k) t = (t, Except.ok k))
    (hV : ∀ (v : V) (t : S), dV (fV v) t = (t, Except.ok v))
    (s : S) :
    (∀ m : List (K × V), (entryKeys m).Pairwise (· < ·) →
      accessThen (btreeMapArchive fK fV m)
        (fun a => (btreeMapDeserialize dK dV a s).2) = Except.ok m)
    ∧ (∀ t : List K, t.Pairwise (· < ·) →
      accessThen (btreeSetArchive fK t)
        (fun a => (btreeSetDeserialize dK a s).2) = Except.ok t)
    ∧ (∀ m : List (K × V), (entryKeys m).Pairwise (· ≠ ·) →
      accessThen (hashMapArchive fK fV m)
        (fun a => (hashMapDeserialize dK dV a s []).2) = Except.ok m)
    ∧ (∀ t : List K, t.Pairwise (· ≠ ·) →
      accessThen (hashSetArchive fK t)
        (fun a => (hashSetDeserialize dK a s []).2) = Except.ok t)
    ∧ (∀ b : K, accessThen (boxArchive fK b)
        (fun a => (boxDeserialize dK a s).2) = Except.ok b)
    ∧ (∀ p : K × V, accessThen (pairArchive fK fV p)
        (fun a => (pairDeserialize dK dV a s).2) = Except.ok p)
    ∧ (∀ l : List K, accessThen (arrayArchive fK l)
        (fun a => (arrayDeserialize dK a s).2) = Except.ok l)
    ∧ (∀ o : Option K, accessThen (optionArchive fK o)
        (fun a => (optionDeserialize dK a s).2) = Except.ok o)
    ∧ (∀ bs : List Nat, accessThen (bytesArchive bs)
        (fun a => ((bytesDeserialize a s : S × Except E (List Nat))).2)
          = Except.ok bs) := by
  refine ⟨?_, ?_, ?_, ?_, ?_, ?_, ?_, ?_, ?_⟩
  · intro m hm
    rw [accessThen_eq]
    show (btreeMapDeserializeGo dK dV (btreeMapArchive fK fV m) s []).2
      = Except.ok m
    have := btreeMapGo_archive_append hK hV m [] s []
    rw [List.append_nil] at this
    rw [this]
    show Except.ok (m.foldl (fun a e => btreeMapInsert e.1 e.2 a) []) = _
    rw [foldl_btreeMapInsert_sorted m [] (by simpa using hm)]
    simp
  · intro t ht
    rw [accessThen_eq]
    show (btreeSetDeserializeGo dK (btreeSetArchive fK t) s []).2
      = Except.ok t
    have := btreeSetGo_archive_append hK t [] s []
    rw [List.append_nil] at this
    rw [this]
    show Except.ok (t.foldl (fun a k => btreeSetInsert k a) []) = _
    rw [foldl_btreeSetInsert_sorted t [] (by simpa using ht)]
    simp
  · intro m hm
    rw [accessThen_eq]
    have := hashMapGo_archive_append hK hV m [] s []
    rw [List.append_nil] at this
    rw [this]
    show Except.ok (m.foldl (fun a e => hashMapInsert e.1 e.2 a) []) = _
    rw [foldl_hashMapInsert_distinct m [] (by simpa using hm)]
    simp
  · intro t ht
    rw [accessThen_eq]
    have := hashSetGo_archive_append hK t [] s []
    rw [List.append_nil] at this
    rw [this]
    show Except.ok (t.foldl (fun a k => hashSetInsert k a) []) = _
    rw [foldl_hashSetInsert_distinct t [] (by simpa using ht)]
    simp
  · intro b
    rw [accessThen_eq]
    show (boxDeserialize dK (fK b) s).2 = Except.ok b
    rw [boxDeserialize, hK b s]
  · intro p
    rw [accessThen_eq]
    show (pairDeserialize dK dV (fK p.1, fV p.2) s).2 = Except.ok p
    rw [pairDeserialize]
    simp only [hK p.1 s, hV p.2 s]
  · intro l
    rw [accessThen_eq]
    show (arrayDeserialize dK (arrayArchive fK l) s).2 = Except.ok l
    rw [arrayDeserialize_archive hK l s]
  · intro o
    rw [accessThen_eq]
    cases o with
    | none => rfl
    | some x =>
      show (optionDeserialize dK (ArchivedOption.Some (fK x)) s).2
        = Except.ok (some x)
      simp only [optionDeserialize, hK x s]
  · intro bs
    rfl

/-- C1 witness: the round-trip law at concrete containers over `Nat`
elements whose archived form is the element itself. -/
theorem round_trip_law_witness :
    (accessThen (btreeMapArchive (fun n : Nat => n) (fun n : Nat => n)
        [(1, 10), (2, 20), (3, 30)])
      (fun a => (btreeMapDeserialize
        (fun (n : Nat) (t : Unit) => (t, (Except.ok n : Except Unit Nat)))
        (fun (n : Nat) (t : Unit) => (t, (Except.ok n : Except Unit Nat)))
        a ()).2) = Except.ok [(1, 10), (2, 20), (3, 30)])
    ∧ (accessThen (hashSetArchive (fun n : Nat => n) [5, 2, 9])
      (fun a => (hashSetDeserialize
        (fun (n : Nat) (t : Unit) => (t, (Except.ok n : Except Unit Nat)))
        a () []).2) = Except.ok [5, 2, 9])
    ∧ (accessThen (optionArchive (fun n : Nat => n) (some 7))
      (fun a => (optionDeserialize
        (fun (n : Nat) (t : Unit) => (t, (Except.ok n : Except Unit Nat)))
        a ()).2) = Except.ok (some 7)) := by
  have h := round_trip_law (fun n : Nat => n) (fun n : Nat => n)
    (fun (n : Nat) (t : Unit) => (t, (Except.ok n : Except Unit Nat)))
    (fun (n : Nat) (t : Unit) => (t, (Except.ok n : Except Unit Nat)))
    (fun k t => rfl) (fun v t => rfl) ()
  exact ⟨h.1 [(1, 10), (2, 20), (3, 30)] (by decide),
    h.2.2.2.1 [5, 2, 9] (by decide),
    h.2.2.2.2.2.2.2.1 (some 7)⟩

/-- C9: Deserialize error propagation for the archived B-tree
containers.  If every entry before some point deserializes cleanly and
that entry's key (or value) deserialization fails, the container's
deserialize returns exactly that error, and the deserializer is left
exactly as the failing call left it — none of the later entries is
deserialized — and no partial container is returned (the result is the
bare error).  If every element succeeds, deserialize returns `Ok` with
the deserializer as found. -/
theorem deserialize_error_propagation {K V AK AV S E : Type}
    [LinearOrder K] (fK : K → AK) (fV : V → AV)
    (dK : AK → S → S × Except E K) (dV : AV → S → S × Except E V)
    (hK : ∀ (k : K) (t : S), dK (fK k) t = (t, Except.ok k))
    (hV : ∀ (v : V) (t : S), dV (fV v) t = (t, Except.ok v)) :
    (∀ (pre : List (K × V)) (post : List (AK × AV)) (bk : AK) (bv : AV)
        (s sb : S) (err : E), dK bk s = (sb, Except.error err) →
      btreeMapDeserialize dK dV
        (btreeMapArchive fK fV pre ++ (bk, bv) :: post) s
        = (sb, Except.error err))
    ∧ (∀ (pre : List (K × V)) (post : List (AK × AV)) (k : K) (bv : AV)
        (s sb : S) (err : E), dV bv s = (sb, Except.error err) →
      btreeMapDeserialize dK dV
        (btreeMapArchive fK fV pre ++ (fK k, bv) :: post) s
        = (sb, Except.error err))
    ∧ (∀ (pre : List K) (post : List AK) (bk : AK) (s sb : S) (err : E),
        dK bk s = (sb, Except.error err) →
      btreeSetDeserialize dK (btreeSetArchive fK pre ++ bk :: post) s
        = (sb, Except.error err))
    ∧ (∀ (m : List (K × V)) (s : S), ∃ r,
        btreeMapDeserialize dK dV (btreeMapArchive fK fV m) s
          = (s, Except.ok r))
    ∧ (∀ (t : List K) (s : S), ∃ r,
        btreeSetDeserialize dK (btreeSetArchive fK t) s
          = (s, Except.ok r)) := by
  refine ⟨?_, ?_, ?_, ?_, ?_⟩
  · intro pre post bk bv s sb err hfail
    show btreeMapDeserializeGo dK dV
      (btreeMapArchive fK fV pre ++ (bk, bv) :: post) s [] = _
    rw [btreeMapGo_archive_append hK hV pre ((bk, bv) :: post) s []]
    simp only [btreeMapDeserializeGo, hfail]
  · intro pre post k bv s sb err hfail
    show btreeMapDeserializeGo dK dV
      (btreeMapArchive fK fV pre ++ (fK k, bv) :: post) s [] = _
    rw [btreeMapGo_archive_append hK hV pre ((fK k, bv) :: post) s []]
    simp only [btreeMapDeserializeGo, hK k s, hfail]
  · intro pre post bk s sb err hfail
    show btreeSetDeserializeGo dK
      (btreeSetArchive fK pre ++ bk :: post) s [] = _
    rw [btreeSetGo_archive_append hK pre (bk :: post) s []]
    simp only [btreeSetDeserializeGo, hfail]
  · intro m s
    refine ⟨m.foldl (fun a e => btreeMapInsert e.1 e.2 a) [], ?_⟩
    show btreeMapDeserializeGo dK dV (btreeMapArchive fK fV m) s [] = _
    have := btreeMapGo_archive_append hK hV m [] s []
    rw [List.append_nil] at this
    rw [this]
    rfl
  · intro t s
    refine ⟨t.foldl (fun a k => btreeSetInsert k a) [], ?_⟩
    show btreeSetDeserializeGo dK (btreeSetArchive fK t) s [] = _
    have := btreeSetGo_archive_append hK t [] s []
    rw [List.append_nil] at this
    rw [this]
    rfl

/-- C9 witness: a concrete archived map `[(2,10), (3,0), (8,12)]` whose
second entry's key (`3`, odd, not an archived form) fails to
deserialize with error `7`: the map deserialize returns exactly
`Err(7)` and leaves the deserializer as the failing call left it. -/
theorem deserialize_error_propagation_witness :
    btreeMapDeserialize
      (fun (a : Nat) (t : Unit) =>
        (t, if a % 2 = 0 then Except.ok (a / 2)
            else (Except.error 7 : Except Nat Nat)))
      (fun (a : Nat) (t : Unit) =>
        (t, if a % 2 = 0 then Except.ok (a / 2)
            else (Except.error 7 : Except Nat Nat)))
      (btreeMapArchive (fun n : Nat => 2 * n) (fun n : Nat => 2 * n)
        [(1, 5)] ++ (3, 0) :: [(8, 12)]) ()
      = ((), Except.error 7) := by
  exact (deserialize_error_propagation (fun n : Nat => 2 * n)
    (fun n : Nat => 2 * n)
    (fun (a : Nat) (t : Unit) =>
      (t, if a % 2 = 0 then Except.ok (a / 2)
          else (Except.error 7 : Except Nat Nat)))
    (fun (a : Nat) (t : Unit) =>
      (t, if a % 2 = 0 then Except.ok (a / 2)
          else (Except.error 7 : Except Nat Nat)))
    (by intro k t; simp [Nat.mul_mod_right, Nat.mul_div_cancel_left])
    (by intro v t; simp [Nat.mul_mod_right, Nat.mul_div_cancel_left])).1
    [(1, 5)] [(8, 12)] 3 0 () () 7 rfl

lemma hashMapGet_mem {K V : Type} [DecidableEq K] :
    ∀ (m : List (K × V)), (entryKeys m).Pairwise (· ≠ ·) →
      ∀ (k : K) (v : V), (k, v) ∈ m → hashMapGet k m = some v := by
  intro m
  induction m with
  | nil => intro _ k v hmem; simp at hmem
  | cons e rest ih =>
    intro hm k v hmem
    have hmc : ((e.1 :: entryKeys rest) : List K).Pairwise (· ≠ ·) := by
      simpa [entryKeys] using hm
    have hm2 : (entryKeys rest).Pairwise (· ≠ ·) :=
      (List.pairwise_cons.mp hmc).2
    show hashMapGet k ((e.1, e.2) :: rest) = some v
    rcases List.mem_cons.mp hmem with h | h
    · rw [hashMapGet, if_pos (congrArg Prod.fst h.symm)]
      rw [← h]
    · have hne : e.1 ≠ k := by
        intro hq
        have hkrest : k ∈ entryKeys rest := by
          simp only [entryKeys, List.mem_map]
          exact ⟨(k, v), h, rfl⟩
        exact (List.pairwise_cons.mp hmc).1 k hkrest hq
      rw [hashMapGet, if_neg hne]
      exact ih hm2 k v h

/-- C2: Zero-copy equivalence.  Reading the archive of `v` directly
compares equal to `v` under the provided `PartialEq` impls: the archive
of an option compares equal to the option (and, characterizing the
impl, `ArchivedOption<U> == Option<T>` holds iff both are `None` or
both are `Some` with equal contents), and the archive of a hash map
with pairwise distinct keys compares equal to the map (and
`ArchivedHashMap == HashMap` holds iff the lengths match and every
archived entry's key maps, in the source, to an equal value). -/
theorem zero_copy_equivalence {T AT K V AK AV : Type} [DecidableEq K]
    (fT : T → AT) (eqTU : AT → T → Bool)
    (hT : ∀ x : T, eqTU (fT x) x = true)
    (fK : K → AK) (fV : V → AV)
    (getQ : AK → List (K × V) → Option V) (eqV : AV → V → Bool)
    (hGet : ∀ (k : K) (m : List (K × V)), getQ (fK k) m = hashMapGet k m)
    (hV : ∀ v : V, eqV (fV v) v = true) :
    (∀ o : Option T,
      archivedOptionEq eqTU (optionArchive fT o) o = true)
    ∧ (∀ (ao : ArchivedOption AT) (o : Option T),
      archivedOptionEq eqTU ao o = true ↔
        ((ao = ArchivedOption.None ∧ o = none)
          ∨ (∃ u t, ao = ArchivedOption.Some u ∧ o = some t
              ∧ eqTU u t = true)))
    ∧ (∀ m : List (K × V), (entryKeys m).Pairwise (· ≠ ·) →
      archivedHashMapEq getQ eqV (hashMapArchive fK fV m) m = true)
    ∧ (∀ (archived : List (AK × AV)) (other : List (K × V)),
      archivedHashMapEq getQ eqV archived other = true ↔
        (archived.length = other.length
          ∧ ∀ e ∈ archived, ∃ v, getQ e.1 other = some v
              ∧ eqV e.2 v = true)) := by
  refine ⟨?_, ?_, ?_, ?_⟩
  · intro o
    cases o with
    | none => rfl
    | some x =>
      show archivedOptionEq eqTU (ArchivedOption.Some (fT x)) (some x)
        = true
      simpa [archivedOptionEq] using hT x
  · intro ao o
    cases ao with
    | None =>
      cases o <;> simp [archivedOptionEq]
    | Some u =>
      cases o with
      | none => simp [archivedOptionEq]
      | some t => simp [archivedOptionEq]
  · intro m hm
    rw [archivedHashMapEq]
    rw [if_neg (by simp [hashMapArchive])]
    rw [List.all_eq_true]
    intro e he
    simp only [hashMapArchive, List.mem_map] at he
    obtain ⟨⟨k, v⟩, hkv, hek⟩ := he
    rw [← hek]
    show (match getQ (fK k) m with
      | some v2 => eqV (fV v) v2
      | none => false) = true
    rw [hGet k m, hashMapGet_mem m hm k v hkv]
    exact hV v
  · intro archived other
    rw [archivedHashMapEq]
    by_cases hlen : archived.length = other.length
    · rw [if_neg (by simp [hlen])]
      rw [List.all_eq_true]
      constructor
      · intro h
        refine ⟨hlen, fun e he => ?_⟩
        have := h e he
        revert this
        cases hg : getQ e.1 other with
        | none => intro hfalse; simp at hfalse
        | some v => intro htrue; exact ⟨v, rfl, htrue⟩
      · intro h e he
        obtain ⟨v, hg, hv⟩ := h.2 e he
        rw [hg]
        exact hv
    · rw [if_pos hlen]
      refine iff_of_false (by simp) ?_
      intro hc
      exact hlen hc.1

/-- C2 witness: a concrete `Some` option and a concrete two-entry hash
map compare equal to their archives. -/
theorem zero_copy_equivalence_witness :
    archivedOptionEq (fun (a b : Nat) => a == b)
      (optionArchive (fun n : Nat => n) (some 5)) (some 5) = true
    ∧ archivedHashMapEq hashMapGet (fun (a b : Nat) => a == b)
      (hashMapArchive (fun n : Nat => n) (fun n : Nat => n)
        [(1, 2), (3, 4)]) [(1, 2), (3, 4)] = true := by
  have h := zero_copy_equivalence (fun n : Nat => n)
    (fun (a b : Nat) => a == b) (by intro x; simp)
    (fun n : Nat => n) (fun n : Nat => n)
    hashMapGet (fun (a b : Nat) => a == b)
    (fun k m => rfl) (by intro v; simp)
  exact ⟨h.1 (some 5), h.2.2.1 [(1, 2), (3, 4)] (by decide)⟩

lemma bumpAt_concat {V : Type} :
    ∀ (l : List (V × Nat)) (v : V) (c : Nat),
      bumpAt l.length (l ++ [(v, c)]) = l ++ [(v, c + 1)] := by
  intro l
  induction l with
  | nil => intro v c; rfl
  | cons p rest ih =>
    intro v c
    show bumpAt (rest.length + 1) (p :: (rest ++ [(v, c)]))
      = p :: (rest ++ [(v, c + 1)])
    rw [bumpAt, ih]

/-- C3: Shared-pointer identity preservation.  Deserializing two
archived shared pointers that refer to the same archived offset (the
offset that the two `triomphe::Arc`s pointing to one heap value
serialized into) produces two handles to the same single allocation —
only one allocation is added to the heap — and the allocation's
ownership count, 1 when it is created and registered, is incremented
once per handle returned: 2 after the first handle, 3 after the
second. -/
theorem shared_pointer_identity {V : Type} (off : Nat) (v v2 : V)
    (st0 : PoolState V) (hfresh : poolFind off st0.pool = none) :
    (arcDeserialize off v st0).2
        = (arcDeserialize off v2 (arcDeserialize off v st0).1).2
    ∧ (arcDeserialize off v2 (arcDeserialize off v st0).1).1.heap.length
        = st0.heap.length + 1
    ∧ refCount (arcDeserialize off v st0).2 (arcDeserialize off v st0).1
        = 1 + 1
    ∧ refCount (arcDeserialize off v st0).2
        (arcDeserialize off v2 (arcDeserialize off v st0).1).1
        = 1 + 2 := by
  have h1 : deserializeShared off v st0
      = (⟨(off, st0.heap.length) :: st0.pool, st0.heap ++ [(v, 1)]⟩,
         st0.heap.length) := by
    rw [deserializeShared, hfresh]
  have hA : arcDeserialize off v st0
      = (⟨(off, st0.heap.length) :: st0.pool, st0.heap ++ [(v, 2)]⟩,
         st0.heap.length) := by
    rw [arcDeserialize, h1]
    simp only [bumpRef]
    rw [bumpAt_concat]
  have hfind : poolFind off ((off, st0.heap.length) :: st0.pool)
      = some st0.heap.length := by
    rw [poolFind, if_pos rfl]
  have h2 : deserializeShared off v2
      (⟨(off, st0.heap.length) :: st0.pool, st0.heap ++ [(v, 2)]⟩ :
        PoolState V)
      = (⟨(off, st0.heap.length) :: st0.pool, st0.heap ++ [(v, 2)]⟩,
         st0.heap.length) := by
    rw [deserializeShared]
    simp only [hfind]
  have hB : arcDeserialize off v2
      (⟨(off, st0.heap.length) :: st0.pool, st0.heap ++ [(v, 2)]⟩ :
        PoolState V)
      = (⟨(off, st0.heap.length) :: st0.pool, st0.heap ++ [(v, 3)]⟩,
         st0.heap.length) := by
    rw [arcDeserialize, h2]
    simp only [bumpRef]
    rw [bumpAt_concat]
  have hrc : ∀ (p : List (Nat × Nat)) (c : Nat),
      refCount st0.heap.length
        (⟨p, st0.heap ++ [(v, c)]⟩ : PoolState V) = c := by
    intro p c
    rw [refCount]
    simp only [List.getElem?_concat_length]
  rw [hA]
  simp only [hB]
  exact ⟨trivial, by simp, hrc _ 2, hrc _ 3⟩

/-- C3 witness: two archived `Arc`s at offset 16 deserialized against
an empty pool. -/
theorem shared_pointer_identity_witness :
    (arcDeserialize 16 42 (⟨[], []⟩ : PoolState Nat)).2
        = (arcDeserialize 16 42
            (arcDeserialize 16 42 (⟨[], []⟩ : PoolState Nat)).1).2
    ∧ refCount (arcDeserialize 16 42 (⟨[], []⟩ : PoolState Nat)).2
        (arcDeserialize 16 42
          (arcDeserialize 16 42 (⟨[], []⟩ : PoolState Nat)).1).1
        = 1 + 2 := by
  have h := shared_pointer_identity 16 42 42 (⟨[], []⟩ : PoolState Nat)
    rfl
  exact ⟨h.1, h.2.2.2⟩

lemma serWrite_serWrite (a b : List Nat) (s : SerState) :
    serWrite b (serWrite a s) = serWrite (a ++ b) s := by
  simp [serWrite]

lemma collectResolvers_pure {T R : Type}
    {serElem : T → SerState → SerState × R} {mkR : T → R}
    (hser : ∀ (t : T) (s : SerState), serElem t s = (s, mkR t)) :
    ∀ (l : List T) (s : SerState),
      collectResolvers serElem l s = (s, l.map mkR) := by
  intro l
  induction l with
  | nil => intro s; rfl
  | cons t rest ih =>
    intro s
    simp only [collectResolvers, hser t s, ih s, List.map_cons]

lemma resolveLoop_bulk {T R : Type}
    {resolveElem : T → R → List Nat} {mkR : T → R}
    {bytesOf : T → List Nat}
    (hres : ∀ t : T, resolveElem t (mkR t) = bytesOf t) :
    ∀ (l : List T) (s : SerState),
      resolveLoop resolveElem (l.zip (l.map mkR)) s
        = serWrite (l.flatMap bytesOf) s := by
  intro l
  induction l with
  | nil => intro s; simp [resolveLoop, serWrite]
  | cons t rest ih =>
    intro s
    show resolveLoop resolveElem ((t, mkR t) :: rest.zip (rest.map mkR)) s
      = _
    rw [resolveLoop]
    simp only [hres t]
    rw [ih (serWrite (bytesOf t) s), serWrite_serWrite,
      List.flatMap_cons]

/-- C4: Copy-optimization transparency.  For an element type with the
copy optimization enabled — its element serialization writes nothing to
the sink and returns a resolver, and resolving an element writes
exactly the element's own byte representation — serializing a slice
via the bulk byte-copy fast path (align, then one write of the whole
slice's bytes) produces exactly the same sink contents as serializing
it via the generic per-element serialize-then-resolve path, and returns
the same offset. -/
theorem copy_optimization_transparency {T R : Type} (al : Nat)
    (bytesOf : T → List Nat) (serElem : T → SerState → SerState × R)
    (resolveElem : T → R → List Nat) (mkR : T → R)
    (hser : ∀ (t : T) (s : SerState), serElem t s = (s, mkR t))
    (hres : ∀ t : T, resolveElem t (mkR t) = bytesOf t)
    (l : List T) (s : SerState) :
    sliceSerializeGeneric al serElem resolveElem l s
      = sliceSerializeFast al bytesOf l s := by
  rw [sliceSerializeGeneric, sliceSerializeFast]
  simp only [collectResolvers_pure hser l s]
  simp only [resolveLoop_bulk hres l]

/-- C4 witness: the two paths coincide on the slice `[10, 20, 40, 80]`
of little-endian 4-byte integers written into an empty sink. -/
theorem copy_optimization_transparency_witness :
    sliceSerializeGeneric 4
      (fun (_ : Nat) (s : SerState) => (s, ()))
      (fun (t : Nat) (_ : Unit) =>
        [t % 256, t / 256 % 256, t / 65536 % 256, t / 16777216 % 256])
      [10, 20, 40, 80] ⟨[]⟩
      = sliceSerializeFast 4
        (fun (t : Nat) =>
          [t % 256, t / 256 % 256, t / 65536 % 256, t / 16777216 % 256])
        [10, 20, 40, 80] ⟨[]⟩ := by
  exact copy_optimization_transparency 4
    (fun (t : Nat) =>
      [t % 256, t / 256 % 256, t / 65536 % 256, t / 16777216 % 256])
    (fun (t : Nat) (s : SerState) => (s, ()))
    (fun (t : Nat) (_ : Unit) =>
      [t % 256, t / 256 % 256, t / 65536 % 256, t / 16777216 % 256])
    (fun _ => ()) (fun t s => rfl) (fun t => rfl) [10, 20, 40, 80] ⟨[]⟩

lemma mono_inj {K AK : Type} [LinearOrder K] [LinearOrder AK]
    {fK : K → AK} (hmono : ∀ a b : K, fK a < fK b ↔ a < b)
    (a b : K) : fK a = fK b ↔ a = b := by
  constructor
  · intro h
    rcases lt_trichotomy a b with hl | he | hg
    · exact absurd ((hmono a b).mpr hl) (by rw [h]; exact lt_irrefl _)
    · exact he
    · exact absurd ((hmono b a).mpr hg) (by rw [h]; exact lt_irrefl _)
  · intro h; rw [h]

lemma btreeSetLookup_found {K AK : Type} [LinearOrder K] [LinearOrder AK]
    {fK : K → AK} (hmono : ∀ a b : K, fK a < fK b ↔ a < b) :
    ∀ (s : List K), s.Pairwise (· < ·) →
      ∀ k ∈ s, btreeLookup (fK k) (btreeSetArchive fK s) = true := by
  intro s
  induction s with
  | nil => intro _ k hk; simp at hk
  | cons k1 rest ih =>
    intro hs k hk
    rw [btreeSetArchive_cons]
    rcases List.mem_cons.mp hk with h | h
    · subst h
      rw [btreeLookup, if_neg (lt_irrefl _), if_pos rfl]
    · have hlt : k1 < k := (List.pairwise_cons.mp hs).1 k h
      have hflt : fK k1 < fK k := (hmono k1 k).mpr hlt
      rw [btreeLookup, if_neg (not_lt_of_gt hflt),
        if_neg (fun hc => absurd ((mono_inj hmono k k1).mp hc)
          (ne_of_gt hlt))]
      exact ih (List.pairwise_cons.mp hs).2 k h

lemma btreeSetLookup_absent {K AK : Type} [LinearOrder K] [LinearOrder AK]
    {fK : K → AK} (hmono : ∀ a b : K, fK a < fK b ↔ a < b) :
    ∀ (s : List K) (k : K), k ∉ s →
      btreeLookup (fK k) (btreeSetArchive fK s) = false := by
  intro s
  induction s with
  | nil => intro k _; rfl
  | cons k1 rest ih =>
    intro k hk
    rw [btreeSetArchive_cons]
    have hne : k ≠ k1 := fun hc => hk (by rw [hc]; simp)
    by_cases hlt : fK k < fK k1
    · rw [btreeLookup, if_pos hlt]
    · rw [btreeLookup, if_neg hlt,
        if_neg (fun hc => hne ((mono_inj hmono k k1).mp hc))]
      exact ih k (fun hc => hk (List.mem_cons_of_mem _ hc))

lemma btreeMapLookup_found {K AK AV V : Type} [LinearOrder K]
    [LinearOrder AK] {fK : K → AK} {fV : V → AV}
    (hmono : ∀ a b : K, fK a < fK b ↔ a < b) :
    ∀ (m : List (K × V)), (entryKeys m).Pairwise (· < ·) →
      ∀ e ∈ m, btreeMapLookup (fK e.1) (btreeMapArchive fK fV m)
        = some (fV e.2) := by
  intro m
  induction m with
  | nil => intro _ e he; simp at he
  | cons e1 rest ih =>
    intro hm e he
    have hmc : ((e1.1 :: entryKeys rest) : List K).Pairwise (· < ·) := by
      simpa [entryKeys] using hm
    rw [btreeMapArchive_cons]
    rcases List.mem_cons.mp he with h | h
    · subst h
      show btreeMapLookup (fK e.1) ((fK e.1, fV e.2) :: _) = _
      rw [btreeMapLookup, if_neg (lt_irrefl _), if_pos rfl]
    · have hlt : e1.1 < e.1 := (List.pairwise_cons.mp hmc).1 e.1
        (by simp only [entryKeys, List.mem_map]; exact ⟨e, h, rfl⟩)
      have hflt : fK e1.1 < fK e.1 := (hmono e1.1 e.1).mpr hlt
      show btreeMapLookup (fK e.1) ((fK e1.1, fV e1.2) :: _) = _
      rw [btreeMapLookup, if_neg (not_lt_of_gt hflt),
        if_neg (fun hc => absurd ((mono_inj hmono e.1 e1.1).mp hc)
          (ne_of_gt hlt))]
      exact ih (List.pairwise_cons.mp hmc).2 e h

lemma btreeMapLookup_absent {K AK AV V : Type} [LinearOrder K]
    [LinearOrder AK] {fK : K → AK} {fV : V → AV}
    (hmono : ∀ a b : K, fK a < fK b ↔ a < b) :
    ∀ (m : List (K × V)) (k : K), k ∉ entryKeys m →
      btreeMapLookup (fK k) (btreeMapArchive fK fV m) = none := by
  intro m
  induction m with
  | nil => intro k _; rfl
  | cons e1 rest ih =>
    intro k hk
    rw [btreeMapArchive_cons]
    have hne : k ≠ e1.1 := fun hc => hk (by rw [hc]; simp [entryKeys])
    show btreeMapLookup (fK k) ((fK e1.1, fV e1.2) :: _) = _
    by_cases hlt : fK k < fK e1.1
    · rw [btreeMapLookup, if_pos hlt]
    · rw [btreeMapLookup, if_neg hlt,
        if_neg (fun hc => hne ((mono_inj hmono k e1.1).mp hc))]
      exact ih k (fun hc => hk (by simp [entryKeys] at hc ⊢; tauto))

/-- C5: Ordered-container correctness.  For a set (or map) archived
from its strictly increasing iterator, with the archived-key ordering
agreeing with the source ordering (the agreement serialization demands
by requiring `Ord` on both key types): raw-byte lookup finds every
inserted key (for the map, returning its archived value), reports
absence for every key not inserted, and the in-order traversal that
`visit`-based deserialization and equality use yields the archived
keys in strictly increasing order. -/
theorem ordered_container_correctness {K AK V AV : Type}
    [LinearOrder K] [LinearOrder AK] (fK : K → AK) (fV : V → AV)
    (hmono : ∀ a b : K, fK a < fK b ↔ a < b) :
    (∀ s : List K, s.Pairwise (· < ·) →
      (∀ k ∈ s, btreeLookup (fK k) (btreeSetArchive fK s) = true)
      ∧ (∀ k : K, k ∉ s →
          btreeLookup (fK k) (btreeSetArchive fK s) = false)
      ∧ (btreeSetArchive fK s).Pairwise (· < ·))
    ∧ (∀ m : List (K × V), (entryKeys m).Pairwise (· < ·) →
      (∀ e ∈ m, btreeMapLookup (fK e.1) (btreeMapArchive fK fV m)
          = some (fV e.2))
      ∧ (∀ k : K, k ∉ entryKeys m →
          btreeMapLookup (fK k) (btreeMapArchive fK fV m) = none)
      ∧ (entryKeys (btreeMapArchive fK fV m)).Pairwise (· < ·)) := by
  constructor
  · intro s hs
    refine ⟨btreeSetLookup_found hmono s hs, ?_, ?_⟩
    · intro k hk
      exact btreeSetLookup_absent hmono s k hk
    · exact List.Pairwise.map fK (fun a b hab => (hmono a b).mpr hab) hs
  · intro m hm
    refine ⟨btreeMapLookup_found hmono m hm, ?_, ?_⟩
    · intro k hk
      exact btreeMapLookup_absent hmono m k hk
    · have : entryKeys (btreeMapArchive fK fV m)
          = (entryKeys m).map fK := by
        simp [entryKeys, btreeMapArchive]
      rw [this]
      exact List.Pairwise.map fK (fun a b hab => (hmono a b).mpr hab) hm

/-- C5 witness: the archived set of `[1, 3, 5]` finds 3, reports 4
absent, and traverses in strictly increasing order. -/
theorem ordered_container_correctness_witness :
    btreeLookup ((fun n : Nat => n) 3)
        (btreeSetArchive (fun n : Nat => n) [1, 3, 5]) = true
    ∧ btreeLookup ((fun n : Nat => n) 4)
        (btreeSetArchive (fun n : Nat => n) [1, 3, 5]) = false
    ∧ (btreeSetArchive (fun n : Nat => n) [1, 3, 5]).Pairwise (· < ·) := by
  have h := (ordered_container_correctness (fun n : Nat => n)
    (fun n : Nat => n) (fun a b => Iff.rfl)).1 [1, 3, 5] (by decide)
  exact ⟨h.1 3 (by decide), h.2.1 4 (by decide), h.2.2⟩

/-! ## Lemmas about the swiss-table model -/

lemma lt_bucketCapacity (n : Nat) (hn : 1 ≤ n) :
    n < bucketCapacity 7 8 n := by
  rw [bucketCapacity]
  have : n + 1 ≤ (n * 8 + 6) / 7 := by
    rw [Nat.le_div_iff_mul_le (by norm_num)]
    omega
  omega

lemma tableInsert_length {A : Type} (hash : A → Nat)
    (tbl : List (Option A)) (a : A) :
    (tableInsert hash tbl a).length = tbl.length := by
  rw [tableInsert]
  cases probeFindEmpty tbl (hash a) tbl.length 0 with
  | none => rfl
  | some i => simp

lemma buildTable_length {A : Type} (hash : A → Nat)
    (entries : List A) :
    (buildTable hash entries).length
      = bucketCapacity 7 8 entries.length := by
  rw [buildTable]
  have : ∀ (l : List A) (tbl : List (Option A)),
      (l.foldl (tableInsert hash) tbl).length = tbl.length := by
    intro l
    induction l with
    | nil => intro tbl; rfl
    | cons a rest ih =>
      intro tbl
      rw [List.foldl_cons, ih, tableInsert_length]
  rw [this]
  simp

lemma countP_set_le {A : Type} (p : Option A → Bool) :
    ∀ (l : List (Option A)) (i : Nat) (x : Option A),
      (l.set i x).countP p ≤ l.countP p + 1 := by
  intro l
  induction l with
  | nil => intro i x; simp
  | cons hd tl ih =>
    intro i x
    cases i with
    | zero =>
      simp only [List.set_cons_zero, List.countP_cons]
      by_cases hx : p x = true
      · by_cases hh : p hd = true
        · simp [hx, hh]
        · simp [hx, hh]
      · by_cases hh : p hd = true
        · simp [hx, hh]
          omega
        · simp [hx, hh]
    | succ j =>
      simp only [List.set_cons_succ, List.countP_cons]
      have := ih j x
      omega

lemma tableInsert_countP {A : Type} (hash : A → Nat)
    (tbl : List (Option A)) (a : A) :
    (tableInsert hash tbl a).countP (fun o => o.isSome)
      ≤ tbl.countP (fun o => o.isSome) + 1 := by
  rw [tableInsert]
  cases probeFindEmpty tbl (hash a) tbl.length 0 with
  | none => simp
  | some i => exact countP_set_le _ tbl _ _

lemma buildTable_countP {A : Type} (hash : A → Nat) :
    ∀ (entries : List A) (tbl : List (Option A)),
      (entries.foldl (tableInsert hash) tbl).countP (fun o => o.isSome)
        ≤ tbl.countP (fun o => o.isSome) + entries.length := by
  intro entries
  induction entries with
  | nil => intro tbl; simp
  | cons a rest ih =>
    intro tbl
    rw [List.foldl_cons]
    have h1 := ih (tableInsert hash tbl a)
    have h2 := tableInsert_countP hash tbl a
    simp only [List.length_cons]
    omega

lemma exists_getD_none {A : Type} :
    ∀ (l : List (Option A)),
      l.countP (fun o => o.isSome) < l.length →
      ∃ b, b < l.length ∧ l.getD b none = none := by
  intro l
  induction l with
  | nil => intro h; simp at h
  | cons hd tl ih =>
    intro h
    cases hd with
    | none => exact ⟨0, by simp, rfl⟩
    | some x =>
      rw [List.countP_cons] at h
      simp at h
      obtain ⟨b, hb, hbd⟩ := ih (by omega)
      exact ⟨b + 1, by simp; omega, hbd⟩

lemma probeLookup_reaches {A : Type} (tbl : List (Option A))
    (isMatch : A → Bool) (h : Nat) :
    ∀ (fuel i : Nat),
      (∃ j, i ≤ j ∧ j < i + fuel
        ∧ tbl.getD ((h + j) % tbl.length) none = none) →
      ∃ r, probeLookup tbl isMatch h fuel i = some r := by
  intro fuel
  induction fuel with
  | zero =>
    intro i hex
    obtain ⟨j, h1, h2, _⟩ := hex
    omega
  | succ f ih =>
    intro i hex
    cases hc : tbl.getD ((h + i) % tbl.length) none with
    | none => exact ⟨none, by simp only [probeLookup, hc]⟩
    | some a =>
      by_cases hm : isMatch a = true
      · exact ⟨some a, by simp only [probeLookup, hc]; rw [if_pos hm]⟩
      · obtain ⟨j, hij, hjf, hempty⟩ := hex
        have hji : j ≠ i := by
          intro hq
          rw [hq] at hempty
          rw [hempty] at hc
          cases hc
        obtain ⟨r, hr⟩ := ih (i + 1)
          ⟨j, by omega, by omega, hempty⟩
        exact ⟨r, by
          simp only [probeLookup, hc]
          rw [if_neg hm]
          exact hr⟩

lemma probe_offset_exists (cap b hq : Nat) (hcap : 0 < cap)
    (hb : b < cap) : ∃ j, j < cap ∧ (hq + j) % cap = b := by
  refine ⟨(cap + b - hq % cap) % cap, Nat.mod_lt _ hcap, ?_⟩
  have hr : hq % cap < cap := Nat.mod_lt _ hcap
  rw [Nat.add_mod_mod]
  have hdm := Nat.div_add_mod hq cap
  have heq : hq + (cap + b - hq % cap) = cap * (hq / cap) + (cap + b) := by
    omega
  rw [heq, Nat.mul_add_mod, Nat.add_mod_left, Nat.mod_eq_of_lt hb]

lemma countP_replicate_none {A : Type} (n : Nat) :
    (List.replicate n (none : Option A)).countP (fun o => o.isSome)
      = 0 := by
  induction n with
  | zero => rfl
  | succ m ih => simp [List.replicate_succ, List.countP_cons, ih]

/-- C6: Hashed-container load bound.  The archive of a hash map or hash
set is built with the load-factor fraction fixed at `(7, 8)` (the
literal the impls pass), so for `n` inserted keys the bucket capacity
is `ceil(n / (7/8)) = ceil(8n/7)` — in particular at most
`(8n + 6) / 7` — and looking up any key, present or absent, reaches a
verdict (a hit or an empty bucket) within a budget of `capacity`
probes: the probe loop never runs out of fuel, hence never loops. -/
theorem hashed_container_load_bound {A : Type} (hash : A → Nat)
    (entries : List A) (isMatch : A → Bool) (h : Nat) :
    (buildTable hash entries).length = bucketCapacity 7 8 entries.length
    ∧ bucketCapacity 7 8 entries.length ≤ (entries.length * 8 + 6) / 7
    ∧ ∃ r, tableLookup (buildTable hash entries) isMatch h = some r := by
  refine ⟨buildTable_length hash entries, le_refl _, ?_⟩
  by_cases hcap : (buildTable hash entries).length = 0
  · exact ⟨none, by rw [tableLookup, if_pos hcap]⟩
  · have hlen := buildTable_length hash entries
    have hn : 1 ≤ entries.length := by
      by_contra hq
      have hz : entries.length = 0 := by omega
      rw [hz] at hlen
      exact hcap (by rw [hlen]; rfl)
    have hcount : (buildTable hash entries).countP (fun o => o.isSome)
        < (buildTable hash entries).length := by
      have h1 := buildTable_countP hash entries
        (List.replicate (bucketCapacity 7 8 entries.length) none)
      rw [countP_replicate_none] at h1
      have h2 := lt_bucketCapacity entries.length hn
      rw [hlen]
      have hbt : (buildTable hash entries).countP (fun o => o.isSome)
          ≤ entries.length := by
        rw [buildTable]
        omega
      omega
    obtain ⟨b, hb, hbd⟩ := exists_getD_none _ hcount
    obtain ⟨j, hj, hjb⟩ := probe_offset_exists
      (buildTable hash entries).length b h
      (Nat.pos_of_ne_zero hcap) hb
    obtain ⟨r, hr⟩ := probeLookup_reaches (buildTable hash entries)
      isMatch h (buildTable hash entries).length 0
      ⟨j, Nat.zero_le _, by omega, by rw [hjb]; exact hbd⟩
    exact ⟨r, by rw [tableLookup, if_neg hcap]; exact hr⟩

/-- C10 witness: a `Skip`-wrapped `Nat` field holding 37 serializes to
nothing and deserializes to the default value 0, not to 37. -/
theorem skip_discards_data_witness :
    skipSerializeWith (37 : Nat) ()
        = ((), (Except.ok () : Except Unit Unit))
    ∧ skipDeserializeWith () ()
        = ((), (Except.ok (0 : Nat) : Except Unit Nat)) := by
  have h := @skip_discards_data Nat Unit Unit _ 37 () ()
  exact ⟨h.1, h.2.2.1⟩
